import Mathlib

/- Verification of src/txtxl.py, a two-stage split-and-paginate pipeline.

   The file system boundaries are modelled as explicit data: a source file is
   the list of its lines as produced by Python readlines (each line keeps its
   trailing newline, except possibly the last line of the file), and an
   intermediate artifact is the pair of its name and the string written to it.
   The pandas read_csv parse of an artifact is abstracted as an already
   available Except value, since read_csv is an external library call; every
   step after it follows the source line by line. -/

/-- Python single-character str.split: `pySplitChar d cs` splits `cs` at every
occurrence of `d`.  Splitting the empty list gives `[[]]`, as in Python, where
the empty string splits to a list holding one empty string. -/
def pySplitChar (d : Char) : List Char → List (List Char)
  | [] => [[]]
  | c :: rest =>
    if c = d then [] :: pySplitChar d rest
    else
      match pySplitChar d rest with
      | [] => [[c]]
      | f :: fs => (c :: f) :: fs

/-- Python str.strip(): drop whitespace from both ends (source lines 34 and 40). -/
def stripChars (cs : List Char) : List Char :=
  ((cs.dropWhile Char.isWhitespace).reverse.dropWhile Char.isWhitespace).reverse

/-- `s.strip()` on a Lean string. -/
def stripStr (s : String) : String := ⟨stripChars s.data⟩

/-- `line.strip().split(delimiter)` (source line 40), with the field character
lists packed back into strings. -/
def fields (d : Char) (l : String) : List String :=
  (pySplitChar d (stripChars l.data)).map (fun cs => (⟨cs⟩ : String))

/-- `columns[1]` (source line 41): the grouping key of a data line.  Returns
`""` on a line with fewer than two fields, where the source raises IndexError
instead; the grouping function below models that failure explicitly and never
uses this default. -/
def keyOf (d : Char) (l : String) : String := (fields d l).getD 1 ""

/-- The in-memory `grouped_data` mapping: keys in insertion order, each with
its records in arrival order. -/
abbrev Groups := List (String × List String)

/-- The dict update of source lines 42-44: `grouped_data[code].append(line)`
after inserting an empty list for a new code.  The first entry carrying the
key is extended in place; a missing key is appended at the end, matching the
insertion-order iteration of a Python dict. -/
def addLine : Groups → String → String → Groups
  | [], k, l => [(k, [l])]
  | g :: gs, k, l =>
    if g.1 = k then (g.1, g.2 ++ [l]) :: gs
    else g :: addLine gs k l

/-- Failures of the grouping stage: `lines[0]` on an empty file, or
`columns[1]` on a data line with fewer than two fields (source lines 34, 41). -/
inductive SplitError where
  | emptyInput : SplitError
  | malformedLine (lineNo : Nat) : SplitError
deriving DecidableEq, Repr

/-- The grouping loop of source lines 39-44.  `idx` is the 1-based file line
number of the next data line; a data line whose split has no index 1 stops
the loop with an error at that line, exactly where the source's `columns[1]`
raises. -/
def groupDataLines (d : Char) : Nat → Groups → List String → Except Nat Groups
  | _, gs, [] => .ok gs
  | idx, gs, l :: rest =>
    match fields d l with
    | _ :: k :: _ => groupDataLines d (idx + 1) (addLine gs k l) rest
    | _ => .error idx

/-- `split_file_by_instruction_code` (source lines 9-59) up to its file system
side effects: header extraction (line 34) and grouping (lines 38-44).  An
empty lines list makes `lines[0]` raise; a malformed data line makes
`columns[1]` raise; both happen before the writing loop of lines 47-51 runs. -/
def split_file_by_instruction_code (lines : List String) (d : Char) :
    Except SplitError (String × Groups) :=
  match lines with
  | [] => .error .emptyInput
  | l0 :: rest =>
    match groupDataLines d 2 [] rest with
    | .ok gs => .ok (stripStr l0, gs)
    | .error i => .error (.malformedLine i)

/-- One artifact's content (source lines 49-51): `header + "\n"` followed by
`out_file.writelines(records)`, which concatenates the records verbatim and
adds no separators of its own. -/
def artifactContent (header : String) (records : List String) : String :=
  header ++ "\n" ++ String.join records

/-- The artifact viewed as its list of written lines: the header line then the
records (source lines 50-51); used to state the rejoin property. -/
def artifactLines (header : String) (records : List String) : List String :=
  header :: records

/-- The writing loop of source lines 47-51: one `<key>.txt` artifact per
group, in group order.  Nothing is written when the grouping stage failed,
because the loop of lines 39-44 runs to completion before line 47 starts. -/
def writeArtifacts (res : Except SplitError (String × Groups)) :
    List (String × String) :=
  match res with
  | .error _ => []
  | .ok (h, gs) => gs.map (fun g => (g.1 ++ ".txt", artifactContent h g.2))

/-- Failures of the conversion stage that the per-file try/except of source
lines 94 and 133 catches: the ZeroDivisionError of `// max_rows` at source
line 104, or a read_csv failure, abstracted with its message. -/
inductive ConvError where
  | zeroDivision : ConvError
  | parseError (msg : String) : ConvError
deriving DecidableEq, Repr

/-- Normalization of one bound of a Python slice `l[a:b]` (also `df.iloc[a:b]`
at source line 110): a negative index counts from the end, and both bounds
clamp into `[0, n]`. -/
def pySliceIdx (n : Nat) (i : Int) : Nat :=
  if i < 0 then (i + n).toNat else min i.toNat n

/-- Python slicing `l[a:b]` with the bounds normalized by `pySliceIdx`. -/
def pySlice (l : List α) (a b : Int) : List α :=
  (l.drop (pySliceIdx l.length a)).take (pySliceIdx l.length b - pySliceIdx l.length a)

/-- The rows-to-batches logic that `convert_text_to_excel` applies to one
parsed file (source lines 102-131): when `len(df) > max_rows`, there are
`num_splits = (len(df) + max_rows - 1) // max_rows` batches under Python floor
division, batch `i` being `df.iloc[i*max_rows : min((i+1)*max_rows, len(df))]`
written as `<base>_part<i+1>.xlsx`; otherwise the whole frame is the single
batch `<base>.xlsx`.  A `max_rows` of zero makes the `//` raise
ZeroDivisionError, modelled as the error case. -/
def paginate (base : String) (df : List α) (max_rows : Int) :
    Except ConvError (List (String × List α)) :=
  if (df.length : Int) > max_rows then
    if max_rows = 0 then .error .zeroDivision
    else
      .ok ((List.range (((df.length : Int) + max_rows - 1).fdiv max_rows).toNat).map
        (fun i =>
          (base ++ "_part" ++ toString (i + 1) ++ ".xlsx",
           pySlice df (((i : Nat) : Int) * max_rows)
             (min ((((i : Nat) : Int) + 1) * max_rows) (df.length : Int)))))
  else
    .ok [(base ++ ".xlsx", df)]

/-- One iteration body of the per-file loop (source lines 93-134): the parse
result of `pd.read_csv` is taken as given, then the pagination logic runs; an
error from either is the exception that the source catches for this file. -/
def processFile (f : String × Except ConvError (List α)) (max_rows : Int) :
    Except ConvError (List (String × List α)) :=
  match f.2 with
  | .error e => .error e
  | .ok df => paginate f.1 df max_rows

/-- `convert_text_to_excel` (source lines 62-141): every file is processed
inside try/except, so a failing file contributes nothing and the loop
continues with the next one; the created outputs accumulate in loop order in
`excel_files`. -/
def convert_text_to_excel (files : List (String × Except ConvError (List α)))
    (max_rows : Int) : List (String × List α) :=
  files.foldl
    (fun acc f =>
      match processFile f max_rows with
      | .error _ => acc
      | .ok bs => acc ++ bs) []

/-- All records that the mapping `gs` holds under key `k`; with distinct keys
this is the single entry of `k`, and `[]` when `k` is absent. -/
def groupOf (gs : Groups) (k : String) : List String :=
  ((gs.filter (fun g => g.1 = k)).map Prod.snd).flatten

/-- The keys of a line sequence in first-encounter order. -/
def firstSeen (ks : List String) : List String :=
  ks.foldl (fun acc k => if k ∈ acc then acc else acc ++ [k]) []

/-- Every data line splits into at least two fields, so `columns[1]` exists. -/
def Wellformed (d : Char) (dl : List String) : Prop :=
  ∀ l ∈ dl, 2 ≤ (fields d l).length

instance (d : Char) (dl : List String) : Decidable (Wellformed d dl) :=
  inferInstanceAs (Decidable (∀ l ∈ dl, 2 ≤ (fields d l).length))

/-- One grouping-loop iteration as a fold step. -/
def groupStep (d : Char) (gs : Groups) (l : String) : Groups :=
  addLine gs (keyOf d l) l

theorem keyOf_eq {d : Char} {l : String} {a k : String} {t : List String}
    (h : fields d l = a :: k :: t) : keyOf d l = k := by
  simp [keyOf, h]

theorem groupDataLines_ok (d : Char) (dl : List String) (h : Wellformed d dl) :
    ∀ idx gs, groupDataLines d idx gs dl = .ok (dl.foldl (groupStep d) gs) := by
  induction dl with
  | nil => intro idx gs; rfl
  | cons l rest ih =>
    intro idx gs
    have hl : 2 ≤ (fields d l).length := h l (by simp)
    have hrest : Wellformed d rest := fun x hx => h x (List.mem_cons_of_mem _ hx)
    rcases hf : fields d l with _ | ⟨a, _ | ⟨k, t⟩⟩
    · rw [hf] at hl; simp at hl
    · rw [hf] at hl; simp at hl
    · rw [List.foldl_cons]
      show groupDataLines d idx gs (l :: rest) =
        .ok (rest.foldl (groupStep d) (groupStep d gs l))
      rw [show groupStep d gs l = addLine gs k l by rw [groupStep, keyOf_eq hf]]
      rw [← ih hrest (idx + 1) (addLine gs k l)]
      simp [groupDataLines, hf]

theorem split_ok_of_wellformed (hdr : String) (dl : List String) (d : Char)
    (h : Wellformed d dl) :
    split_file_by_instruction_code (hdr :: dl) d =
      .ok (stripStr hdr, dl.foldl (groupStep d) []) := by
  simp [split_file_by_instruction_code, groupDataLines_ok d dl h 2 []]

theorem keys_addLine (gs : Groups) (k l : String) :
    (addLine gs k l).map Prod.fst =
      if k ∈ gs.map Prod.fst then gs.map Prod.fst else gs.map Prod.fst ++ [k] := by
  induction gs with
  | nil => simp [addLine]
  | cons g gs ih =>
    by_cases hg : g.1 = k
    · simp [addLine, hg]
    · have hne : ¬ k = g.1 := fun h => hg h.symm
      by_cases hk : k ∈ gs.map Prod.fst
      · simp [addLine, hg, ih, hk, hne]
      · simp [addLine, hg, ih, hk, hne]

theorem nodup_keys_addLine {gs : Groups} (hnd : (gs.map Prod.fst).Nodup)
    (k l : String) : ((addLine gs k l).map Prod.fst).Nodup := by
  rw [keys_addLine]
  by_cases hk : k ∈ gs.map Prod.fst
  · simpa [hk] using hnd
  · simp only [hk, if_false]
    rw [List.nodup_append]
    exact ⟨hnd, List.nodup_singleton k, by simpa using hk⟩

theorem groupOf_cons (a : String) (b : List String) (gs : Groups) (k : String) :
    groupOf ((a, b) :: gs) k = (if a = k then b else []) ++ groupOf gs k := by
  by_cases h : a = k <;> simp [groupOf, h]

theorem groupOf_of_not_mem {gs : Groups} {k : String}
    (h : k ∉ gs.map Prod.fst) : groupOf gs k = [] := by
  have : gs.filter (fun g => g.1 = k) = [] := by
    rw [List.filter_eq_nil_iff]
    intro g hg
    simp only [decide_eq_true_eq]
    intro hk
    exact h (List.mem_map.mpr ⟨g, hg, hk⟩)
  simp [groupOf, this]

theorem groupOf_addLine (gs : Groups) (hnd : (gs.map Prod.fst).Nodup)
    (k l k' : String) :
    groupOf (addLine gs k l) k' =
      groupOf gs k' ++ (if k' = k then [l] else []) := by
  induction gs with
  | nil =>
    by_cases h : k' = k
    · simp [addLine, groupOf, h]
    · have : ¬ k = k' := fun hk => h hk.symm
      simp [addLine, groupOf, h, this]
  | cons g gs ih =>
    rcases g with ⟨a, b⟩
    rw [List.map_cons, List.nodup_cons] at hnd
    show groupOf (if a = k then (a, b ++ [l]) :: gs else (a, b) :: addLine gs k l) k' = _
    by_cases hg : a = k
    · rw [if_pos hg]
      have h1 : k ∉ gs.map Prod.fst := by rw [← hg]; exact hnd.1
      have hgs : groupOf gs k = [] := groupOf_of_not_mem h1
      rw [groupOf_cons, groupOf_cons]
      by_cases h' : a = k'
      · have hk'k : k' = k := by rw [← h', hg]
        rw [if_pos h', if_pos h', if_pos hk'k, hk'k, hgs]
        simp
      · have hk'k : ¬ k' = k := fun hh => h' (by rw [hg, ← hh])
        rw [if_neg h', if_neg h', if_neg hk'k]
        simp
    · rw [if_neg hg]
      rw [groupOf_cons, ih hnd.2, groupOf_cons]
      simp [List.append_assoc]

theorem groupOf_foldl (d : Char) (dl : List String) :
    ∀ gs : Groups, (gs.map Prod.fst).Nodup → ∀ k,
      groupOf (dl.foldl (groupStep d) gs) k =
        groupOf gs k ++ dl.filter (fun l => keyOf d l = k) := by
  induction dl with
  | nil => intro gs _ k; simp
  | cons l rest ih =>
    intro gs hnd k
    rw [List.foldl_cons]
    rw [ih (groupStep d gs l) (nodup_keys_addLine hnd (keyOf d l) l) k]
    rw [show groupStep d gs l = addLine gs (keyOf d l) l from rfl]
    rw [groupOf_addLine gs hnd (keyOf d l) l k]
    rw [List.filter_cons]
    by_cases h : keyOf d l = k
    · subst h
      simp [List.append_assoc]
    · have h' : ¬ k = keyOf d l := fun hh => h hh.symm
      simp [h, h']

theorem keys_foldl (d : Char) (dl : List String) :
    ∀ gs : Groups,
      (dl.foldl (groupStep d) gs).map Prod.fst =
        dl.foldl (fun acc l => if keyOf d l ∈ acc then acc else acc ++ [keyOf d l])
          (gs.map Prod.fst) := by
  induction dl with
  | nil => intro gs; simp
  | cons l rest ih =>
    intro gs
    rw [List.foldl_cons, List.foldl_cons, ih (groupStep d gs l)]
    rw [show groupStep d gs l = addLine gs (keyOf d l) l from rfl]
    rw [keys_addLine]

theorem nodup_insertFold :
    ∀ (ks : List String) (acc : List String), acc.Nodup →
      (ks.foldl (fun a k => if k ∈ a then a else a ++ [k]) acc).Nodup := by
  intro ks
  induction ks with
  | nil => intro acc h; simp only [List.foldl_nil]; exact h
  | cons k rest ih =>
    intro acc h
    rw [List.foldl_cons]
    by_cases hk : k ∈ acc
    · rw [if_pos hk]; exact ih acc h
    · rw [if_neg hk]
      refine ih _ ?_
      rw [List.nodup_append]
      exact ⟨h, List.nodup_singleton k, by simpa using hk⟩

theorem mem_insertFold :
    ∀ (ks : List String) (acc : List String) (k : String),
      k ∈ ks.foldl (fun a x => if x ∈ a then a else a ++ [x]) acc ↔
        k ∈ acc ∨ k ∈ ks := by
  intro ks
  induction ks with
  | nil => intro acc k; simp
  | cons x rest ih =>
    intro acc k
    rw [List.foldl_cons, ih]
    by_cases hx : x ∈ acc
    · rw [if_pos hx]
      constructor
      · rintro (h | h)
        · exact Or.inl h
        · exact Or.inr (List.mem_cons_of_mem _ h)
      · rintro (h | h)
        · exact Or.inl h
        · rcases List.mem_cons.mp h with rfl | h
          · exact Or.inl hx
          · exact Or.inr h
    · rw [if_neg hx]
      simp only [List.mem_append, List.mem_singleton, List.mem_cons]
      tauto

theorem groupOf_entry {gs : Groups} (hnd : (gs.map Prod.fst).Nodup) :
    ∀ g ∈ gs, groupOf gs g.1 = g.2 := by
  induction gs with
  | nil => intro g hg; simp at hg
  | cons g0 gs ih =>
    rcases g0 with ⟨a, b⟩
    rw [List.map_cons, List.nodup_cons] at hnd
    intro g hg
    rcases List.mem_cons.mp hg with rfl | hg
    · rw [groupOf_cons, if_pos rfl, groupOf_of_not_mem hnd.1]
      simp
    · rw [groupOf_cons]
      have ha : ¬ a = g.1 := by
        intro hh
        exact hnd.1 (hh ▸ List.mem_map.mpr ⟨g, hg, rfl⟩)
      rw [if_neg ha]
      simp [ih hnd.2 g hg]

theorem flatten_filter_perm {α β : Type} [DecidableEq β] (key : α → β) :
    ∀ (dl : List α) (ks : List β), ks.Nodup → (∀ a ∈ dl, key a ∈ ks) →
      ((ks.map (fun k => dl.filter (fun a => key a = k))).flatten).Perm dl := by
  intro dl
  induction dl with
  | nil =>
    intro ks _ _
    rw [List.perm_nil, List.flatten_eq_nil_iff]
    intro l hl
    rcases List.mem_map.mp hl with ⟨k, _, rfl⟩
    simp
  | cons a rest ih =>
    intro ks hnd hcov
    have ha : key a ∈ ks := hcov a (by simp)
    obtain ⟨xs, ys, rfl⟩ := List.append_of_mem ha
    have hnd' := hnd
    rw [List.nodup_append] at hnd'
    have hxs : key a ∉ xs := fun hx => hnd'.2.2 hx (by simp)
    have hys : key a ∉ ys := by
      have := hnd'.2.1
      rw [List.nodup_cons] at this
      exact this.1
    have hcovr : ∀ x ∈ rest, key x ∈ xs ++ key a :: ys := fun x hx =>
      hcov x (List.mem_cons_of_mem _ hx)
    have hx' : xs.map (fun k => (a :: rest).filter (fun x => key x = k)) =
        xs.map (fun k => rest.filter (fun x => key x = k)) := by
      apply List.map_congr_left
      intro k hk
      rw [List.filter_cons]
      have : ¬ key a = k := fun hh => hxs (hh ▸ hk)
      simp [this]
    have hy' : ys.map (fun k => (a :: rest).filter (fun x => key x = k)) =
        ys.map (fun k => rest.filter (fun x => key x = k)) := by
      apply List.map_congr_left
      intro k hk
      rw [List.filter_cons]
      have : ¬ key a = k := fun hh => hys (hh ▸ hk)
      simp [this]
    have hc : (a :: rest).filter (fun x => key x = key a) =
        a :: rest.filter (fun x => key x = key a) := by
      rw [List.filter_cons]
      simp
    rw [List.map_append, List.map_cons, List.flatten_append, List.flatten_cons]
    rw [hx', hy', hc]
    have hperm := ih (xs ++ key a :: ys) hnd hcovr
    rw [List.map_append, List.map_cons, List.flatten_append, List.flatten_cons]
      at hperm
    refine List.Perm.trans ?_ (List.Perm.cons a hperm)
    exact List.perm_middle

theorem finalKeys (d : Char) (dl : List String) :
    (dl.foldl (groupStep d) []).map Prod.fst = firstSeen (dl.map (keyOf d)) := by
  rw [keys_foldl d dl [], firstSeen, List.foldl_map]
  rfl

theorem finalKeys_nodup (d : Char) (dl : List String) :
    ((dl.foldl (groupStep d) []).map Prod.fst).Nodup := by
  rw [finalKeys, firstSeen]
  exact nodup_insertFold (dl.map (keyOf d)) [] List.nodup_nil

theorem finalGroupOf (d : Char) (dl : List String) (k : String) :
    groupOf (dl.foldl (groupStep d) []) k = dl.filter (fun l => keyOf d l = k) := by
  have := groupOf_foldl d dl [] (by simp) k
  simpa [groupOf] using this

theorem finalCoverage (d : Char) (dl : List String) :
    ∀ l ∈ dl, keyOf d l ∈ (dl.foldl (groupStep d) []).map Prod.fst := by
  intro l hl
  rw [finalKeys, firstSeen]
  exact (mem_insertFold (dl.map (keyOf d)) [] _).mpr (Or.inr (List.mem_map.mpr ⟨l, hl, rfl⟩))

theorem finalEntry (d : Char) (dl : List String) :
    ∀ g ∈ dl.foldl (groupStep d) [], g.2 = dl.filter (fun l => keyOf d l = g.1) := by
  intro g hg
  rw [← finalGroupOf d dl g.1]
  exact (groupOf_entry (finalKeys_nodup d dl) g hg).symm

theorem finalPerm (d : Char) (dl : List String) :
    (((dl.foldl (groupStep d) []).map Prod.snd).flatten).Perm dl := by
  have hmap : (dl.foldl (groupStep d) []).map Prod.snd =
      ((dl.foldl (groupStep d) []).map Prod.fst).map
        (fun k => dl.filter (fun l => keyOf d l = k)) := by
    rw [List.map_map]
    apply List.map_congr_left
    intro g hg
    exact finalEntry d dl g hg
  rw [hmap]
  exact flatten_filter_perm (keyOf d) dl _ (finalKeys_nodup d dl) (finalCoverage d dl)

theorem groupDataLines_error (d : Char) (dl : List String) :
    ∀ (idx : Nat) (gs : Groups),
      (∃ l ∈ dl, (fields d l).length < 2) →
      groupDataLines d idx gs dl =
        .error (idx + dl.findIdx (fun l => decide ((fields d l).length < 2))) := by
  induction dl with
  | nil => intro idx gs h; rcases h with ⟨l, hl, _⟩; simp at hl
  | cons l rest ih =>
    intro idx gs h
    by_cases hbad : (fields d l).length < 2
    · have hp : (fun l => decide ((fields d l).length < 2)) l = true := by
        simp [hbad]
      rcases hf : fields d l with _ | ⟨a, _ | ⟨k, t⟩⟩
      · simp [groupDataLines, hf, List.findIdx_cons, hp]
      · simp [groupDataLines, hf, List.findIdx_cons, hp]
      · rw [hf] at hbad; simp only [List.length_cons] at hbad; omega
    · have hp : decide ((fields d l).length < 2) = false := by
        simp [hbad]
      rcases hf : fields d l with _ | ⟨a, _ | ⟨k, t⟩⟩
      · rw [hf] at hbad; simp at hbad
      · rw [hf] at hbad; simp at hbad
      · have hrest : ∃ x ∈ rest, (fields d x).length < 2 := by
          rcases h with ⟨x, hx, hxl⟩
          rcases List.mem_cons.mp hx with rfl | hx
          · rw [hf] at hxl; simp only [List.length_cons] at hxl; omega
          · exact ⟨x, hx, hxl⟩
        rw [show groupDataLines d idx gs (l :: rest) =
            groupDataLines d (idx + 1) (addLine gs k l) rest by
          simp [groupDataLines, hf]]
        rw [ih (idx + 1) (addLine gs k l) hrest]
        rw [List.findIdx_cons, hp]
        simp only [cond_false]
        congr 1
        omega


/-- C1: for an input whose data lines all split into at least two fields, the
grouping stage succeeds; the group keys are pairwise distinct, the group of
key `k` is exactly the subsequence of data lines whose field at index 1 is
`k` (so each line lands in exactly one group, in source order), and every data
line's key is among the group keys. -/
theorem grouping_partitions_data_lines (hdr : String) (dl : List String)
    (d : Char) (h : Wellformed d dl) :
    ∃ gs : Groups,
      split_file_by_instruction_code (hdr :: dl) d = .ok (stripStr hdr, gs) ∧
      (gs.map Prod.fst).Nodup ∧
      (∀ k, groupOf gs k = dl.filter (fun l => keyOf d l = k)) ∧
      (∀ l ∈ dl, keyOf d l ∈ gs.map Prod.fst) :=
  ⟨dl.foldl (groupStep d) [], split_ok_of_wellformed hdr dl d h,
    finalKeys_nodup d dl, fun k => finalGroupOf d dl k, finalCoverage d dl⟩

/-- Witness for C1 on the spec's own scenario input. -/
theorem grouping_partitions_data_lines_witness :
    ∃ gs : Groups,
      split_file_by_instruction_code
        ["id~code~amount\n", "1~A~10\n", "2~B~20\n", "3~A~30\n"] '~' =
        .ok (stripStr "id~code~amount\n", gs) ∧
      (gs.map Prod.fst).Nodup ∧
      (∀ k, groupOf gs k =
        ["1~A~10\n", "2~B~20\n", "3~A~30\n"].filter (fun l => keyOf '~' l = k)) ∧
      (∀ l ∈ ["1~A~10\n", "2~B~20\n", "3~A~30\n"], keyOf '~' l ∈ gs.map Prod.fst) :=
  grouping_partitions_data_lines "id~code~amount\n"
    ["1~A~10\n", "2~B~20\n", "3~A~30\n"] '~' (by decide)

/-- C3: a data line with fewer than two delimiter-separated fields makes the
grouping stage fail, the error carrying the 1-based file line number of the
first such line (where the source's `columns[1]` raises IndexError), and no
intermediate artifact is written, the writing loop never being reached. -/
theorem malformed_line_aborts_before_write (hdr : String) (dl : List String)
    (d : Char) (h : ∃ l ∈ dl, (fields d l).length < 2) :
    split_file_by_instruction_code (hdr :: dl) d =
      .error (.malformedLine
        (2 + dl.findIdx (fun l => decide ((fields d l).length < 2)))) ∧
    writeArtifacts (split_file_by_instruction_code (hdr :: dl) d) = [] := by
  have he := groupDataLines_error d dl 2 [] h
  exact ⟨by simp [split_file_by_instruction_code, he],
    by simp [writeArtifacts, split_file_by_instruction_code, he]⟩

/-- Witness for C3: the malformed third file line stops the run unwritten. -/
theorem malformed_line_aborts_before_write_witness :
    split_file_by_instruction_code ["h~h\n", "1~A\n", "bad\n"] '~' =
      .error (.malformedLine
        (2 + ["1~A\n", "bad\n"].findIdx (fun l => decide ((fields '~' l).length < 2)))) ∧
    writeArtifacts (split_file_by_instruction_code ["h~h\n", "1~A\n", "bad\n"] '~') = [] :=
  malformed_line_aborts_before_write "h~h\n" ["1~A\n", "bad\n"] '~' (by decide)

/-- C5: on a well-formed input, concatenating the group artifacts in group
order with the repeated header line removed from each is a permutation of the
source's data lines: no line lost, none duplicated. -/
theorem split_rejoin_preserves_multiset (hdr : String) (dl : List String)
    (d : Char) (h : Wellformed d dl) :
    ∃ gs : Groups,
      split_file_by_instruction_code (hdr :: dl) d = .ok (stripStr hdr, gs) ∧
      ((gs.map (fun g => (artifactLines (stripStr hdr) g.2).tail)).flatten).Perm dl := by
  refine ⟨dl.foldl (groupStep d) [], split_ok_of_wellformed hdr dl d h, ?_⟩
  have hmap : (dl.foldl (groupStep d) []).map
      (fun g => (artifactLines (stripStr hdr) g.2).tail) =
      (dl.foldl (groupStep d) []).map Prod.snd :=
    List.map_congr_left (fun g _ => rfl)
  rw [hmap]
  exact finalPerm d dl

/-- Witness for C5 on the spec's scenario input. -/
theorem split_rejoin_preserves_multiset_witness :
    ∃ gs : Groups,
      split_file_by_instruction_code
        ["id~code~amount\n", "1~A~10\n", "2~B~20\n", "3~A~30\n"] '~' =
        .ok (stripStr "id~code~amount\n", gs) ∧
      ((gs.map (fun g => (artifactLines (stripStr "id~code~amount\n") g.2).tail)).flatten).Perm
        ["1~A~10\n", "2~B~20\n", "3~A~30\n"] :=
  split_rejoin_preserves_multiset "id~code~amount\n"
    ["1~A~10\n", "2~B~20\n", "3~A~30\n"] '~' (by decide)

/-- C9: the grouping stage is a pure function of its input lines and
delimiter, so two runs on the same input produce the identical mapping, and
the groups (hence the written artifacts) are enumerated in the order each key
was first encountered among the data lines. -/
theorem grouping_deterministic_first_encounter_order (hdr : String)
    (dl : List String) (d : Char) (h : Wellformed d dl) :
    (∀ lines2, lines2 = hdr :: dl →
      split_file_by_instruction_code lines2 d =
        split_file_by_instruction_code (hdr :: dl) d) ∧
    ∃ gs : Groups,
      split_file_by_instruction_code (hdr :: dl) d = .ok (stripStr hdr, gs) ∧
      gs.map Prod.fst = firstSeen (dl.map (keyOf d)) :=
  ⟨fun _ h2 => by rw [h2],
    dl.foldl (groupStep d) [], split_ok_of_wellformed hdr dl d h, finalKeys d dl⟩

/-- Witness for C9: keys come out as A then B, their first-encounter order. -/
theorem grouping_deterministic_first_encounter_order_witness :
    (∀ lines2, lines2 = ["h~c\n", "1~A\n", "2~B\n", "3~A\n"] →
      split_file_by_instruction_code lines2 '~' =
        split_file_by_instruction_code ["h~c\n", "1~A\n", "2~B\n", "3~A\n"] '~') ∧
    ∃ gs : Groups,
      split_file_by_instruction_code ["h~c\n", "1~A\n", "2~B\n", "3~A\n"] '~' =
        .ok (stripStr "h~c\n", gs) ∧
      gs.map Prod.fst = firstSeen (["1~A\n", "2~B\n", "3~A\n"].map (keyOf '~')) :=
  grouping_deterministic_first_encounter_order "h~c\n"
    ["1~A\n", "2~B\n", "3~A\n"] '~' (by decide)

/-- C10: an input holding only the header line groups to the empty mapping,
writes zero artifacts and returns normally. -/
theorem header_only_input_yields_no_groups (hdr : String) (d : Char) :
    split_file_by_instruction_code [hdr] d = .ok (stripStr hdr, []) ∧
    writeArtifacts (split_file_by_instruction_code [hdr] d) = [] :=
  ⟨rfl, rfl⟩

/-- C8 counterexample: with header line `"h~h \n"` (trailing blank before the
newline) and final data line `"a~X"` (no trailing newline, as readlines yields
for a file not ending in a newline), the single artifact's content is
`"h~h\na~X"`: it does not begin with the source's header line verbatim (the
blank was stripped), and its final record is not terminated by a line break. -/
theorem artifact_layout_counterexample :
    writeArtifacts (split_file_by_instruction_code ["h~h \n", "a~X"] '~') =
      [("X.txt", "h~h\na~X")] ∧
    ¬ ("h~h \n".data).isPrefixOf ("h~h\na~X".data) ∧
    ("h~h\na~X".data).getLastD ' ' ≠ '\n' :=
  ⟨by decide, by decide, by decide⟩

/-- C8 as amended: every artifact is the stripped header line, a line break,
then that key's records concatenated verbatim, each with its original
trailing content (hence terminated by a line break exactly when its source
line carried one, which readlines guarantees for all but a final unterminated
line). -/
theorem artifact_layout_spec (hdr : String) (dl : List String) (d : Char)
    (h : Wellformed d dl) :
    ∃ gs : Groups,
      split_file_by_instruction_code (hdr :: dl) d = .ok (stripStr hdr, gs) ∧
      writeArtifacts (split_file_by_instruction_code (hdr :: dl) d) =
        gs.map (fun g => (g.1 ++ ".txt", stripStr hdr ++ "\n" ++ String.join g.2)) ∧
      ∀ g ∈ gs, g.2 = dl.filter (fun l => keyOf d l = g.1) := by
  refine ⟨dl.foldl (groupStep d) [], split_ok_of_wellformed hdr dl d h, ?_,
    finalEntry d dl⟩
  rw [split_ok_of_wellformed hdr dl d h]
  rfl

/-- Witness for amended C8. -/
theorem artifact_layout_spec_witness :
    ∃ gs : Groups,
      split_file_by_instruction_code ["h~h \n", "1~A\n", "a~X"] '~' =
        .ok (stripStr "h~h \n", gs) ∧
      writeArtifacts (split_file_by_instruction_code ["h~h \n", "1~A\n", "a~X"] '~') =
        gs.map (fun g => (g.1 ++ ".txt", stripStr "h~h \n" ++ "\n" ++ String.join g.2)) ∧
      ∀ g ∈ gs, g.2 = ["1~A\n", "a~X"].filter (fun l => keyOf '~' l = g.1) :=
  artifact_layout_spec "h~h \n" ["1~A\n", "a~X"] '~' (by decide)

theorem fdiv_natCast (a b : Nat) : (a : Int).fdiv (b : Int) = ((a / b : Nat) : Int) := by
  cases a with
  | zero => rw [Nat.zero_div]; rfl
  | succ a => rfl

theorem pySliceIdx_natCast (n a : Nat) : pySliceIdx n (a : Int) = min a n := by
  unfold pySliceIdx
  rw [if_neg (not_lt.mpr (Int.natCast_nonneg a))]
  rw [Int.toNat_ofNat]

theorem pySlice_natCast {α : Type} (l : List α) (a b : Nat) :
    pySlice l (a : Int) (b : Int) =
      (l.drop (min a l.length)).take (min b l.length - min a l.length) := by
  unfold pySlice
  simp only [pySliceIdx_natCast]

theorem pySlice_chunk {α : Type} (df : List α) (mm : Nat) (i : Nat)
    (hi : i * mm < df.length) :
    pySlice df ((i : Int) * (mm : Int))
        (min (((i : Int) + 1) * (mm : Int)) (df.length : Int)) =
      (df.drop (i * mm)).take mm := by
  have hcast1 : ((i : Int) * (mm : Int)) = ((i * mm : Nat) : Int) := by push_cast; ring
  have hcast2 : (((i : Int) + 1) * (mm : Int)) = (((i + 1) * mm : Nat) : Int) := by
    push_cast; ring
  have hcast3 : min (((i + 1) * mm : Nat) : Int) ((df.length : Nat) : Int) =
      ((min ((i + 1) * mm) df.length : Nat) : Int) :=
    (Nat.cast_min ((i + 1) * mm) df.length).symm
  rw [hcast1, hcast2, hcast3, pySlice_natCast]
  have h1 : min (i * mm) df.length = i * mm := min_eq_left (le_of_lt hi)
  rw [h1]
  have h2 : min (min ((i + 1) * mm) df.length) df.length =
      min ((i + 1) * mm) df.length := by
    rw [min_assoc, min_self]
  rw [h2]
  rw [List.take_eq_take]
  rw [List.length_drop, Nat.succ_mul]
  omega

theorem flatten_chunks {α : Type} (mm : Nat) :
    ∀ (k : Nat) (df : List α), df.length ≤ k * mm →
      ((List.range k).map (fun i => (df.drop (i * mm)).take mm)).flatten = df := by
  intro k
  induction k with
  | zero =>
    intro df h
    simp only [Nat.zero_mul, Nat.le_zero] at h
    rw [List.eq_nil_of_length_eq_zero h]
    rfl
  | succ k ih =>
    intro df h
    have hlen : (df.drop mm).length ≤ k * mm := by
      rw [List.length_drop]
      rw [Nat.succ_mul] at h
      omega
    have hcomp : ((fun i => (df.drop (i * mm)).take mm) ∘ Nat.succ) =
        (fun i => ((df.drop mm).drop (i * mm)).take mm) := by
      funext i
      show (df.drop ((i + 1) * mm)).take mm = ((df.drop mm).drop (i * mm)).take mm
      rw [List.drop_drop]
      have : (i + 1) * mm = mm + i * mm := by rw [Nat.succ_mul]; omega
      rw [this]
    rw [List.range_succ_eq_map, List.map_cons, List.flatten_cons, List.map_map,
      hcomp, ih (df.drop mm) hlen]
    simp [List.take_append_drop]

theorem ceil_le_mul (n mm : Nat) (hm : 0 < mm) : n ≤ ((n + mm - 1) / mm) * mm := by
  have hdm := Nat.div_add_mod (n + mm - 1) mm
  have hlt : (n + mm - 1) % mm < mm := Nat.mod_lt _ hm
  have hmul : ((n + mm - 1) / mm) * mm = mm * ((n + mm - 1) / mm) := Nat.mul_comm _ _
  omega

theorem mul_lt_of_lt_ceil {n mm i : Nat} (hm : 0 < mm)
    (hi : i < (n + mm - 1) / mm) : i * mm < n := by
  have h1 : ((n + mm - 1) / mm) * mm ≤ n + mm - 1 := Nat.div_mul_le_self _ _
  have h2 : (i + 1) * mm ≤ ((n + mm - 1) / mm) * mm :=
    Nat.mul_le_mul_right _ hi
  rw [Nat.succ_mul] at h2
  omega

theorem numSplits_eq (n mm : Nat) (hm : 0 < mm) :
    (((n : Int) + (mm : Int) - 1).fdiv (mm : Int)).toNat = (n + mm - 1) / mm := by
  have hc : (n : Int) + (mm : Int) - 1 = ((n + mm - 1 : Nat) : Int) := by
    rw [Nat.cast_sub (by omega)]
    push_cast
    ring
  rw [hc, fdiv_natCast, Int.toNat_ofNat]

/-- C2 counterexample: a parsed artifact with zero rows and `max_rows = 5`
produces one batch (the source's else-branch emits a single workbook for any
frame within the limit), while ceil(0/5) is zero, so the batch count is not
ceil(n/m). -/
theorem pagination_batch_count_counterexample :
    paginate "A" ([] : List String) 5 = .ok [("A.xlsx", [])] ∧
    ¬ ([("A.xlsx", ([] : List String))].length =
        (([] : List String).length + (5 : Int).toNat - 1) / (5 : Int).toNat) :=
  ⟨rfl, by decide⟩

/-- C2 as amended: for an artifact with at least one parsed row and positive
`max_rows`, pagination produces exactly ceil(n/m) batches, each of at most
`m` rows, whose concatenation is exactly the row list (so sizes sum to `n`
and order is preserved), batch `i` (0-based) holding rows
`[i*m, min((i+1)*m, n))`. -/
theorem pagination_batches_spec {α : Type} (base : String) (df : List α)
    (m : Int) (hn : 1 ≤ df.length) (hm : 0 < m) :
    ∃ bs : List (String × List α), paginate base df m = .ok bs ∧
      bs.length = (df.length + m.toNat - 1) / m.toNat ∧
      (∀ b ∈ bs, b.2.length ≤ m.toNat) ∧
      (bs.map Prod.snd).flatten = df ∧
      ∀ i (hilt : i < bs.length),
        (bs.get ⟨i, hilt⟩).2 = (df.drop (i * m.toNat)).take m.toNat := by
  obtain ⟨mm, rfl⟩ : ∃ mm : Nat, m = (mm : Int) :=
    ⟨m.toNat, (Int.toNat_of_nonneg (le_of_lt hm)).symm⟩
  simp only [Int.toNat_ofNat]
  have hmm0 : 0 < mm := by exact_mod_cast hm
  by_cases hgt : (df.length : Int) > (mm : Int)
  · have hng : mm < df.length := by exact_mod_cast hgt
    have hm0 : ¬ ((mm : Int) = 0) := by exact_mod_cast hmm0.ne'
    refine ⟨(List.range ((df.length + mm - 1) / mm)).map (fun i =>
        (base ++ "_part" ++ toString (i + 1) ++ ".xlsx",
          (df.drop (i * mm)).take mm)), ?_, ?_, ?_, ?_, ?_⟩
    · unfold paginate
      rw [if_pos hgt, if_neg hm0]
      rw [numSplits_eq df.length mm hmm0]
      congr 1
      apply List.map_congr_left
      intro i hi
      rw [List.mem_range] at hi
      rw [pySlice_chunk df mm i (mul_lt_of_lt_ceil hmm0 hi)]
    · simp
    · intro b hb
      rcases List.mem_map.mp hb with ⟨i, _, rfl⟩
      simp only [List.length_take, List.length_drop]
      omega
    · rw [List.map_map]
      have hsnd : (Prod.snd ∘ fun i =>
          ((base ++ "_part" ++ toString (i + 1) ++ ".xlsx" : String),
            (df.drop (i * mm)).take mm)) =
          (fun i => (df.drop (i * mm)).take mm) := rfl
      rw [hsnd]
      exact flatten_chunks mm _ df (ceil_le_mul df.length mm hmm0)
    · intro i hilt
      simp [List.get_eq_getElem]
  · have hle : df.length ≤ mm := by
      rw [not_lt] at hgt
      exact_mod_cast hgt
    refine ⟨[(base ++ ".xlsx", df)], ?_, ?_, ?_, ?_, ?_⟩
    · unfold paginate
      rw [if_neg hgt]
    · simp only [List.length_cons, List.length_nil]
      exact (Nat.div_eq_of_lt_le (by omega) (by omega)).symm
    · intro b hb
      rcases List.mem_cons.mp hb with rfl | hb
      · exact hle
      · simp at hb
    · simp
    · intro i hilt
      simp only [List.length_cons, List.length_nil] at hilt
      have hi0 : i = 0 := by omega
      subst hi0
      show df = (df.drop (0 * mm)).take mm
      rw [Nat.zero_mul, List.drop_zero]
      exact (List.take_of_length_le hle).symm

/-- Witness for amended C2: three rows with `max_rows = 2` give two batches. -/
theorem pagination_batches_spec_witness :
    ∃ bs : List (String × List Nat),
      paginate "A" ([10, 20, 30] : List Nat) 2 = .ok bs ∧
      bs.length =
        (([10, 20, 30] : List Nat).length + (2 : Int).toNat - 1) / (2 : Int).toNat ∧
      (∀ b ∈ bs, b.2.length ≤ (2 : Int).toNat) ∧
      (bs.map Prod.snd).flatten = [10, 20, 30] ∧
      ∀ i (hilt : i < bs.length),
        (bs.get ⟨i, hilt⟩).2 =
          (([10, 20, 30] : List Nat).drop (i * (2 : Int).toNat)).take (2 : Int).toNat :=
  pagination_batches_spec "A" [10, 20, 30] 2 (by decide) (by decide)

/-- C4 counterexample: with `max_rows = 0` and two artifacts, the first
nonempty one fails with the division-by-zero error only after being parsed,
and the second is still parsed and emitted, so no ConfigurationError stops the
stage before parsing. -/
theorem nonpositive_max_rows_not_rejected :
    convert_text_to_excel
      [("A", .ok ["r"]), ("B", .ok ([] : List String))] 0 = [("B.xlsx", [])] ∧
    processFile ("A", .ok (["r"] : List String)) 0 = .error .zeroDivision :=
  ⟨rfl, rfl⟩

/-- C4 as amended: the source never validates `max_rows`.  A `max_rows` of
zero makes each nonempty parsed artifact fail individually with the
ZeroDivisionError of the batch-count division, caught per artifact while the
run continues; a negative `max_rows` is accepted and pagination returns
batches without any error. -/
theorem nonpositive_max_rows_behavior {α : Type} (base : String) (df : List α)
    (m : Int) :
    (m = 0 → df ≠ [] → paginate base df m = .error .zeroDivision) ∧
    (m < 0 → ∃ bs, paginate base df m = .ok bs) := by
  constructor
  · rintro rfl hne
    have hpos : 0 < df.length := List.length_pos.mpr hne
    unfold paginate
    rw [if_pos (by exact_mod_cast hpos), if_pos rfl]
  · intro hneg
    have hgt : (df.length : Int) > m := lt_of_lt_of_le hneg (Int.natCast_nonneg _)
    have hne : ¬ (m = 0) := by omega
    unfold paginate
    rw [if_pos hgt, if_neg hne]
    exact ⟨_, rfl⟩

/-- Witness for amended C4: `max_rows = 0` fails after parse on a one-row
artifact; `max_rows = -3` is accepted without error. -/
theorem nonpositive_max_rows_behavior_witness :
    paginate "A" ([7] : List Nat) 0 = .error .zeroDivision ∧
    ∃ bs, paginate "A" ([7] : List Nat) (-3) = .ok bs :=
  ⟨(nonpositive_max_rows_behavior "A" [7] 0).1 rfl (by decide),
    (nonpositive_max_rows_behavior "A" [7] (-3)).2 (by decide)⟩

/-- C6: an artifact whose parse or conversion fails contributes nothing and
changes nothing else: the batch run over the full file list equals the run
with the failing artifact removed, so every remaining artifact is still
processed. -/
theorem per_file_failure_isolation {α : Type}
    (pre post : List (String × Except ConvError (List α)))
    (f : String × Except ConvError (List α)) (m : Int)
    (h : ∃ e, processFile f m = .error e) :
    convert_text_to_excel (pre ++ f :: post) m =
      convert_text_to_excel (pre ++ post) m := by
  rcases h with ⟨e, he⟩
  unfold convert_text_to_excel
  simp only [List.foldl_append, List.foldl_cons, he]

/-- Witness for C6: a parse failure in the middle leaves the neighbours'
outputs unchanged. -/
theorem per_file_failure_isolation_witness :
    convert_text_to_excel
        ([("A", .ok ["x"])] ++ ("B", .error (.parseError "bad")) ::
          [("C", .ok (["y"] : List String))]) 10 =
      convert_text_to_excel
        ([("A", .ok ["x"])] ++ [("C", .ok (["y"] : List String))]) 10 :=
  per_file_failure_isolation [("A", .ok ["x"])] [("C", .ok ["y"])]
    ("B", .error (.parseError "bad")) 10 ⟨.parseError "bad", rfl⟩

/-- C7: a parsed artifact within the row budget becomes the single output
`<base>.xlsx` holding all rows; one over the budget yields outputs named
`<base>_part1.xlsx`, `<base>_part2.xlsx`, and so on from 1. -/
theorem batch_naming_spec {α : Type} (base : String) (df : List α) (m : Int) :
    ((df.length : Int) ≤ m → paginate base df m = .ok [(base ++ ".xlsx", df)]) ∧
    (m < (df.length : Int) → ∀ bs, paginate base df m = .ok bs →
      bs.map Prod.fst =
        (List.range bs.length).map
          (fun i => base ++ "_part" ++ toString (i + 1) ++ ".xlsx")) := by
  constructor
  · intro hle
    unfold paginate
    rw [if_neg (not_lt.mpr hle)]
  · intro hgt bs hbs
    unfold paginate at hbs
    rw [if_pos hgt] at hbs
    by_cases hm0 : m = 0
    · rw [if_pos hm0] at hbs
      simp at hbs
    · rw [if_neg hm0] at hbs
      injection hbs with hbs
      rw [← hbs]
      simp [List.map_map]

/-- Witness for C7: three rows fit in one `A.xlsx` at budget 5 and split into
`A_part1.xlsx`, `A_part2.xlsx` at budget 2. -/
theorem batch_naming_spec_witness :
    paginate "A" ([1, 2, 3] : List Nat) 5 = .ok [("A.xlsx", [1, 2, 3])] ∧
    ([("A_part1.xlsx", [1, 2]), ("A_part2.xlsx", ([3] : List Nat))]).map Prod.fst =
      (List.range
          ([("A_part1.xlsx", [1, 2]), ("A_part2.xlsx", ([3] : List Nat))]).length).map
        (fun i => "A" ++ "_part" ++ toString (i + 1) ++ ".xlsx") :=
  ⟨(batch_naming_spec "A" [1, 2, 3] 5).1 (by decide),
    (batch_naming_spec "A" ([1, 2, 3] : List Nat) 2).2 (by decide)
      [("A_part1.xlsx", [1, 2]), ("A_part2.xlsx", [3])] rfl⟩
